import Mathlib

/-!
Verification of the short Weierstrass curve gadget layer.

The layer under `src/curta/src/chip/ec/weierstrass/mod.rs` consists of the
`WeierstrassParameters` descriptor trait (limb-array curve coefficients, the
reconstruction accessors `a_int` / `b_int`, the generator, the group order and
`nb_scalar_bits`) and the `EllipticCurve` implementation for `SWCurve` whose
operations `ec_add`, `ec_double` and `ec_generator` forward to the shared
constraint builder (`sw_add`, `sw_double`, `fp_constant`).  The builder, the
field-instruction primitives and the slope/addition/doubling constraint bodies
live in sibling modules that are not part of the provided sources; those are
modelled from the specification (sections 4.3 to 4.6) and are marked as such.

Machine integers (`BigUint`, `u16`, `usize`) are embedded as `Nat`; registers
of the constraint system are embedded as natural-number handles.
-/

/-- Witness-form affine point (struct `AffinePoint`): a pair of big-integer
coordinates, generic over the base field.  `BigUint` is embedded as `Nat`. -/
structure AffinePoint where
  x : Nat
  y : Nat

/-- Curve Parameter Descriptor (trait `WeierstrassParameters`) for a short
Weierstrass curve `y^2 = x^3 + a*x + b`.  The limb arrays `A` and `B` embed the
Rust associated constants of type `[u16; MAX_NB_LIMBS]`: the fixed length and
the 16-bit bound on every limb are guarantees of that array type and are
carried here as proof fields.  `MAX_NB_LIMBS` (a constant of the external field
parameters module) and the base-field limb count `NB_LIMBS`
(`Self::BaseField::NB_LIMBS`) are numeric parameters of code outside the
provided sources, carried here as data fields. -/
structure WeierstrassParameters where
  MAX_NB_LIMBS : Nat
  NB_LIMBS : Nat
  A : List Nat
  B : List Nat
  A_length : A.length = MAX_NB_LIMBS
  B_length : B.length = MAX_NB_LIMBS
  A_u16 : ∀ l ∈ A, l < 65536
  B_u16 : ∀ l ∈ B, l < 65536
  generator : AffinePoint
  prime_group_order : Nat

/-- The reconstruction loop shared verbatim by the bodies of `a_int` and
`b_int`: starting from `BigUint::zero()`, the loop
`for (i, limb) in limbs.iter().enumerate() { acc += limb << (16 * i) }`. -/
def limbs_to_integer (limbs : List Nat) : Nat :=
  List.foldl (fun acc p => acc + p.2 <<< (16 * p.1)) 0 limbs.enum

/-- `WeierstrassParameters::a_int`: materializes the `A` limb array into an
arbitrary-precision integer. -/
def WeierstrassParameters.a_int (E : WeierstrassParameters) : Nat :=
  limbs_to_integer E.A

/-- `WeierstrassParameters::b_int`: materializes the `B` limb array into an
arbitrary-precision integer. -/
def WeierstrassParameters.b_int (E : WeierstrassParameters) : Nat :=
  limbs_to_integer E.B

/-- `WeierstrassParameters::nb_scalar_bits`:
`Self::BaseField::NB_LIMBS * 16`. -/
def WeierstrassParameters.nb_scalar_bits (E : WeierstrassParameters) : Nat :=
  E.NB_LIMBS * 16

/-- The specification's positional reconstruction (section 4.2): the sum over
all indices `i` of `limb[i] * 65536 ^ i`, little-endian by limb index. -/
def to_integer_spec (limbs : List Nat) : Nat :=
  ∑ i in Finset.range limbs.length, limbs.getD i 0 * 65536 ^ i

/-- Modelled from the spec: `from_curve_constant`, the codec direction that
decomposes a big integer into `k` little-endian 16-bit limbs — section 4.2
calls it "the implicit inverse supplied by whoever authors a Curve Parameter
Descriptor"; its body is not part of the provided sources. -/
def from_curve_constant (k n : Nat) : List Nat :=
  (List.range k).map (fun i => n / 65536 ^ i % 65536)

/-- Helper for reasoning about `limbs_to_integer`: the value of a limb list
whose first limb sits at position `n`. -/
def limbs_val : Nat → List Nat → Nat
  | _, [] => 0
  | n, l :: ls => l * 2 ^ (16 * n) + limbs_val (n + 1) ls

/-- Register-form affine point (struct `AffinePointRegister`): a pair of
field-register handles into the builder's register space. -/
structure AffinePointRegister where
  x : Nat
  y : Nat

/-- Modelled from the spec: the constraints emitted by the external
field-instruction primitives (section 6): constant injection pins a register
to a fixed integer value, and each arithmetic primitive pins a result register
to a combination of two operand registers.  `div` is the modular-inverse-based
division primitive of section 4.3, satisfiable only when the denominator
register is nonzero.  The field-instruction module is not part of the provided
sources. -/
inductive FpConstraint where
  | constEq (r : Nat) (v : Nat)
  | add (r a b : Nat)
  | sub (r a b : Nat)
  | mul (r a b : Nat)
  | div (r a b : Nat)

/-- Modelled from the spec: the shared constraint builder (`AirBuilder`),
reduced to the state this gadget layer observes — the number of allocated
registers and the ordered list of emitted constraints (sections 5 and 6).
The builder itself is not part of the provided sources. -/
structure AirBuilder where
  num_regs : Nat
  constraints : List FpConstraint

/-- Modelled from the spec: `fp_constant(integer) -> field_register`
(section 6) — allocates a fresh register and pins it to the given value. -/
def AirBuilder.fp_constant (b : AirBuilder) (v : Nat) : Nat × AirBuilder :=
  (b.num_regs, ⟨b.num_regs + 1, b.constraints ++ [FpConstraint.constEq b.num_regs v]⟩)

/-- Modelled from the spec: the field addition primitive over registers. -/
def AirBuilder.fp_add (b : AirBuilder) (x y : Nat) : Nat × AirBuilder :=
  (b.num_regs, ⟨b.num_regs + 1, b.constraints ++ [FpConstraint.add b.num_regs x y]⟩)

/-- Modelled from the spec: the field subtraction primitive over registers. -/
def AirBuilder.fp_sub (b : AirBuilder) (x y : Nat) : Nat × AirBuilder :=
  (b.num_regs, ⟨b.num_regs + 1, b.constraints ++ [FpConstraint.sub b.num_regs x y]⟩)

/-- Modelled from the spec: the field multiplication primitive over
registers. -/
def AirBuilder.fp_mul (b : AirBuilder) (x y : Nat) : Nat × AirBuilder :=
  (b.num_regs, ⟨b.num_regs + 1, b.constraints ++ [FpConstraint.mul b.num_regs x y]⟩)

/-- Modelled from the spec: the modular-inverse-based field division primitive
over registers (section 4.3). -/
def AirBuilder.fp_div (b : AirBuilder) (x y : Nat) : Nat × AirBuilder :=
  (b.num_regs, ⟨b.num_regs + 1, b.constraints ++ [FpConstraint.div b.num_regs x y]⟩)

/-- Modelled from the spec: the Slope Gadget, secant form (section 4.3) —
emits constraints computing `(y2 - y1) / (x2 - x1)`.  Its body is not part of
the provided sources. -/
def AirBuilder.sw_slope (b : AirBuilder) (p q : AffinePointRegister) :
    Nat × AirBuilder :=
  let s1 := b.fp_sub q.y p.y
  let s2 := s1.2.fp_sub q.x p.x
  s2.2.fp_div s1.1 s2.1

/-- Modelled from the spec: the Slope Gadget, tangent form (section 4.3) —
emits constraints computing `(3*x^2 + a) / (2*y)` given registers holding the
curve coefficient `a` and the literal constant `3`.  Its body is not part of
the provided sources. -/
def AirBuilder.sw_tangent (b : AirBuilder) (p : AffinePointRegister) (a three : Nat) :
    Nat × AirBuilder :=
  let s1 := b.fp_mul p.x p.x
  let s2 := s1.2.fp_mul three s1.1
  let s3 := s2.2.fp_add s2.1 a
  let s4 := s3.2.fp_add p.y p.y
  s4.2.fp_div s3.1 s4.1

/-- Modelled from the spec: the Addition Gadget `sw_add` (section 4.4) —
secant slope `m`, then `x3 = m^2 - x_p - x_q` and `y3 = m*(x_p - x3) - y_p`,
allocating the result registers.  Its body is not part of the provided
sources. -/
def AirBuilder.sw_add (b : AirBuilder) (p q : AffinePointRegister) :
    AffinePointRegister × AirBuilder :=
  let sm := b.sw_slope p q
  let s3 := sm.2.fp_mul sm.1 sm.1
  let s4 := s3.2.fp_sub s3.1 p.x
  let s5 := s4.2.fp_sub s4.1 q.x
  let s6 := s5.2.fp_sub p.x s5.1
  let s7 := s6.2.fp_mul sm.1 s6.1
  let s8 := s7.2.fp_sub s7.1 p.y
  (⟨s5.1, s8.1⟩, s8.2)

/-- Modelled from the spec: the Doubling Gadget `sw_double` (section 4.5) —
tangent slope from the supplied `a` and `3` constant registers, then the same
coordinate formulas as addition with `p` for both operands.  Its body is not
part of the provided sources. -/
def AirBuilder.sw_double (b : AirBuilder) (p : AffinePointRegister) (a three : Nat) :
    AffinePointRegister × AirBuilder :=
  let sm := b.sw_tangent p a three
  let s3 := sm.2.fp_mul sm.1 sm.1
  let s4 := s3.2.fp_sub s3.1 p.x
  let s5 := s4.2.fp_sub s4.1 p.x
  let s6 := s5.2.fp_sub p.x s5.1
  let s7 := s6.2.fp_mul sm.1 s6.1
  let s8 := s7.2.fp_sub s7.1 p.y
  (⟨s5.1, s8.1⟩, s8.2)

/-- `EllipticCurve::ec_add` for `SWCurve<E>`: forwards to `builder.sw_add`. -/
def ec_add (b : AirBuilder) (p q : AffinePointRegister) :
    AffinePointRegister × AirBuilder :=
  b.sw_add p q

/-- `EllipticCurve::ec_double` for `SWCurve<E>`: injects `E::a_int()` and the
literal `3` as field constants, then calls `builder.sw_double`. -/
def ec_double (E : WeierstrassParameters) (b : AirBuilder) (p : AffinePointRegister) :
    AffinePointRegister × AirBuilder :=
  let sa := b.fp_constant E.a_int
  let s3 := sa.2.fp_constant 3
  s3.2.sw_double p sa.1 s3.1

/-- `EllipticCurve::ec_generator` for `SWCurve<E>`: injects the generator
coordinates from the descriptor as field constants and returns them as a
register-form point. -/
def ec_generator (E : WeierstrassParameters) (b : AirBuilder) :
    AffinePointRegister × AirBuilder :=
  let sx := b.fp_constant E.generator.x
  let sy := sx.2.fp_constant E.generator.y
  (⟨sx.1, sy.1⟩, sy.2)

/-- `SWCurve::generator`: re-wraps the descriptor's generator point. -/
def SWCurve.generator (E : WeierstrassParameters) : AffinePoint :=
  ⟨E.generator.x, E.generator.y⟩

/-- Modelled from the spec: satisfaction of one emitted constraint by an
assignment of base-field values to registers (section 7).  Division is
satisfiable only when the denominator register holds a nonzero value, which is
how the modular-inverse division primitive "forces `x2 ≠ x1`" (section 4.3). -/
def FpConstraint.holds {F : Type} [Field F] (σ : Nat → F) : FpConstraint → Prop
  | FpConstraint.constEq r v => σ r = (v : F)
  | FpConstraint.add r x y => σ r = σ x + σ y
  | FpConstraint.sub r x y => σ r = σ x - σ y
  | FpConstraint.mul r x y => σ r = σ x * σ y
  | FpConstraint.div r x y => σ r * σ y = σ x ∧ σ y ≠ 0

/-- An assignment satisfies a constraint list when it satisfies every
constraint in it. -/
def satisfiesAll {F : Type} [Field F] (σ : Nat → F) (cs : List FpConstraint) : Prop :=
  ∀ c ∈ cs, FpConstraint.holds σ c

/-- Modelled from the spec: the secant slope of section 4.3,
`(y2 - y1) / (x2 - x1)`, at the level of base-field values. -/
def secant_slope {F : Type} [Field F] (p q : F × F) : F :=
  (q.2 - p.2) / (q.1 - p.1)

/-- Modelled from the spec: the tangent slope of section 4.3,
`(3*x^2 + a) / (2*y)`, at the level of base-field values. -/
def tangent_slope {F : Type} [Field F] (a : F) (p : F × F) : F :=
  (3 * p.1 * p.1 + a) / (p.2 + p.2)

/-- Modelled from the spec: the shared coordinate formulas of section 4.4 —
given a slope `m` and the two operand points, `x3 = m^2 - x_p - x_q` and
`y3 = m*(x_p - x3) - y_p`. -/
def point_from_slope {F : Type} [Field F] (m : F) (p q : F × F) : F × F :=
  (m * m - p.1 - q.1, m * (p.1 - (m * m - p.1 - q.1)) - p.2)

/-- Modelled from the spec: the value pinned by the Addition Gadget's
constraints (section 4.4) — chord addition with the secant slope. -/
def sw_add_affine {F : Type} [Field F] (p q : F × F) : F × F :=
  point_from_slope (secant_slope p q) p q

/-- Modelled from the spec: the value pinned by the Doubling Gadget's
constraints (section 4.5) — tangent slope, then `x3 = m^2 - 2*x` and
`y3 = m*(x - x3) - y`. -/
def sw_double_affine {F : Type} [Field F] (a : F) (p : F × F) : F × F :=
  (tangent_slope a p * tangent_slope a p - 2 * p.1,
   tangent_slope a p * (p.1 - (tangent_slope a p * tangent_slope a p - 2 * p.1)) - p.2)

/-- The curve membership predicate: `(x, y)` satisfies
`y^2 = x^3 + a*x + b` over the base field. -/
def onCurve {F : Type} [Field F] (a b : F) (p : F × F) : Prop :=
  p.2 ^ 2 = p.1 ^ 3 + a * p.1 + b

/-- The Mathlib short Weierstrass curve with coefficients `a` and `b`. -/
def toW {F : Type} [Field F] (a b : F) : WeierstrassCurve.Affine F :=
  ⟨0, 0, 0, a, b⟩

/-- A concrete toy descriptor (the spec's section 8 scenario curve
`y^2 = x^3 + 0*x + 7` with the point `(1, 5)` as declared generator), used to
instantiate hypotheses of the general theorems at concrete inputs. -/
def testCurve : WeierstrassParameters :=
  ⟨2, 2, [0, 0], [7, 0], rfl, rfl, by decide, by decide, ⟨1, 5⟩, 18⟩

instance : Fact (Nat.Prime 17) := ⟨by norm_num⟩

theorem foldl_enumFrom_limbs (ls : List Nat) :
    ∀ (n acc : Nat),
      List.foldl (fun acc p => acc + p.2 <<< (16 * p.1)) acc (List.enumFrom n ls) =
        acc + limbs_val n ls := by
  induction ls with
  | nil => intro n acc; simp [limbs_val]
  | cons l ls ih =>
      intro n acc
      simp only [List.enumFrom, List.foldl, limbs_val]
      rw [ih (n + 1), Nat.shiftLeft_eq]
      ring

theorem limbs_to_integer_eq_val (ls : List Nat) :
    limbs_to_integer ls = limbs_val 0 ls := by
  have h := foldl_enumFrom_limbs ls 0 0
  simpa [limbs_to_integer, List.enum] using h

theorem limbs_val_succ (ls : List Nat) :
    ∀ n : Nat, limbs_val (n + 1) ls = 65536 * limbs_val n ls := by
  induction ls with
  | nil => intro n; simp [limbs_val]
  | cons l ls ih =>
      intro n
      rw [limbs_val, limbs_val, ih (n + 1)]
      rw [show 16 * (n + 1) = 16 * n + 16 by ring, pow_add]
      norm_num
      ring

theorem limbs_val_zero_eq_sum (ls : List Nat) :
    limbs_val 0 ls = ∑ i in Finset.range ls.length, ls.getD i 0 * 65536 ^ i := by
  induction ls with
  | nil => simp [limbs_val]
  | cons l ls ih =>
      rw [limbs_val, limbs_val_succ, List.length_cons, Finset.sum_range_succ']
      simp only [List.getD_cons_succ, List.getD_cons_zero, pow_zero, mul_one]
      rw [ih, Finset.mul_sum]
      have hterm : ∀ i ∈ Finset.range ls.length,
          65536 * (ls.getD i 0 * 65536 ^ i) = ls.getD i 0 * 65536 ^ (i + 1) :=
        fun i _ => by ring
      rw [Finset.sum_congr rfl hterm]
      omega

theorem limbs_val_decomp (k : Nat) :
    ∀ n : Nat, limbs_val 0 (from_curve_constant k n) = n % 65536 ^ k := by
  induction k with
  | zero => intro n; simp [from_curve_constant, limbs_val, Nat.mod_one]
  | succ k ih =>
      intro n
      rw [from_curve_constant, List.range_succ_eq_map]
      simp only [List.map_cons, List.map_map]
      have ht : List.map ((fun i => n / 65536 ^ i % 65536) ∘ Nat.succ) (List.range k) =
          from_curve_constant k (n / 65536) := by
        unfold from_curve_constant
        congr 1
        funext i
        simp only [Function.comp_apply, Nat.succ_eq_add_one]
        rw [pow_succ', ← Nat.div_div_eq_div_mul]
      rw [ht, limbs_val, limbs_val_succ, ih (n / 65536)]
      simp only [pow_zero, Nat.div_one, Nat.mul_zero, mul_one, pow_succ']
      rw [Nat.mod_mul]

theorem limbs_val_lt (ls : List Nat) (h : ∀ l ∈ ls, l < 65536) :
    limbs_val 0 ls < 2 ^ (16 * ls.length) := by
  induction ls with
  | nil => simp [limbs_val]
  | cons l ls ih =>
      have hl : l < 65536 := h l (List.mem_cons_self l ls)
      have hls : limbs_val 0 ls < 2 ^ (16 * ls.length) :=
        ih (fun x hx => h x (List.mem_cons_of_mem l hx))
      rw [limbs_val, limbs_val_succ, List.length_cons,
        show 16 * (ls.length + 1) = 16 * ls.length + 16 by ring, pow_add]
      have h2 : (2 : Nat) ^ 16 = 65536 := by norm_num
      rw [h2]
      omega

theorem ec_add_shape (b : AirBuilder) (p q : AffinePointRegister) :
    (ec_add b p q).2.constraints =
      b.constraints ++
        [FpConstraint.sub b.num_regs q.y p.y,
         FpConstraint.sub (b.num_regs + 1) q.x p.x,
         FpConstraint.div (b.num_regs + 2) b.num_regs (b.num_regs + 1),
         FpConstraint.mul (b.num_regs + 3) (b.num_regs + 2) (b.num_regs + 2),
         FpConstraint.sub (b.num_regs + 4) (b.num_regs + 3) p.x,
         FpConstraint.sub (b.num_regs + 5) (b.num_regs + 4) q.x,
         FpConstraint.sub (b.num_regs + 6) p.x (b.num_regs + 5),
         FpConstraint.mul (b.num_regs + 7) (b.num_regs + 2) (b.num_regs + 6),
         FpConstraint.sub (b.num_regs + 8) (b.num_regs + 7) p.y] ∧
    (ec_add b p q).2.num_regs = b.num_regs + 9 ∧
    (ec_add b p q).1 = ⟨b.num_regs + 5, b.num_regs + 8⟩ := by
  refine ⟨?_, ?_, ?_⟩ <;>
    simp [ec_add, AirBuilder.sw_add, AirBuilder.sw_slope, AirBuilder.fp_sub,
      AirBuilder.fp_mul, AirBuilder.fp_div]

theorem onCurve_iff_equation {F : Type} [Field F] (a b : F) (p : F × F) :
    onCurve a b p ↔ (toW a b).Equation p.1 p.2 := by
  rw [WeierstrassCurve.Affine.equation_iff]
  unfold onCurve toW
  constructor <;> intro h <;> linear_combination h

theorem secant_eq_slope {F : Type} [Field F] (a b : F) (p q : F × F) (hx : p.1 ≠ q.1) :
    secant_slope p q = (toW a b).slope p.1 q.1 p.2 q.2 := by
  rw [WeierstrassCurve.Affine.slope_of_X_ne hx]
  unfold secant_slope
  rw [show p.2 - q.2 = -(q.2 - p.2) by ring, show p.1 - q.1 = -(q.1 - p.1) by ring,
    neg_div_neg_eq]

theorem sw_add_on_curve {F : Type} [Field F] (a b : F) (p q : F × F)
    (hp : onCurve a b p) (hq : onCurve a b q) (hx : p.1 ≠ q.1) :
    onCurve a b (sw_add_affine p q) := by
  have h1 : (toW a b).Equation p.1 p.2 := (onCurve_iff_equation a b p).mp hp
  have h2 : (toW a b).Equation q.1 q.2 := (onCurve_iff_equation a b q).mp hq
  have hxy : p.1 = q.1 → p.2 ≠ (toW a b).negY q.1 q.2 := fun h => absurd h hx
  have key := WeierstrassCurve.Affine.equation_add h1 h2 hxy
  rw [onCurve_iff_equation]
  have hX : (sw_add_affine p q).1 =
      (toW a b).addX p.1 q.1 ((toW a b).slope p.1 q.1 p.2 q.2) := by
    unfold sw_add_affine point_from_slope
    rw [← secant_eq_slope a b p q hx]
    show secant_slope p q * secant_slope p q - p.1 - q.1 = _
    unfold toW WeierstrassCurve.Affine.addX
    ring
  have hY : (sw_add_affine p q).2 =
      (toW a b).addY p.1 q.1 p.2 ((toW a b).slope p.1 q.1 p.2 q.2) := by
    unfold sw_add_affine point_from_slope
    rw [← secant_eq_slope a b p q hx]
    show secant_slope p q * (p.1 - (secant_slope p q * secant_slope p q - p.1 - q.1)) - p.2 = _
    unfold toW WeierstrassCurve.Affine.addY WeierstrassCurve.Affine.negY
      WeierstrassCurve.Affine.negAddY WeierstrassCurve.Affine.addX
    ring
  rw [hX, hY]
  exact key

theorem sw_add_comm_of_ne {F : Type} [Field F] (p q : F × F) (hx : p.1 ≠ q.1) :
    sw_add_affine p q = sw_add_affine q p := by
  have hd : q.1 - p.1 ≠ 0 := sub_ne_zero.mpr (Ne.symm hx)
  have hm : secant_slope q p = secant_slope p q := by
    unfold secant_slope
    rw [show p.2 - q.2 = -(q.2 - p.2) by ring, show p.1 - q.1 = -(q.1 - p.1) by ring,
      neg_div_neg_eq]
  have hmm : secant_slope p q * (q.1 - p.1) = q.2 - p.2 := div_mul_cancel₀ _ hd
  unfold sw_add_affine point_from_slope
  rw [hm]
  refine Prod.ext ?_ ?_
  · show secant_slope p q * secant_slope p q - p.1 - q.1 =
      secant_slope p q * secant_slope p q - q.1 - p.1
    ring
  · show secant_slope p q * (p.1 - (secant_slope p q * secant_slope p q - p.1 - q.1)) - p.2 =
      secant_slope p q * (q.1 - (secant_slope p q * secant_slope p q - q.1 - p.1)) - q.2
    linear_combination (-1 : F) * hmm

theorem tangent_eq_slope {F : Type} [Field F] (a b : F) (p : F × F)
    (hneg : p.2 ≠ (toW a b).negY p.1 p.2) :
    tangent_slope a p = (toW a b).slope p.1 p.1 p.2 p.2 := by
  rw [WeierstrassCurve.Affine.slope_of_Y_ne rfl hneg]
  unfold tangent_slope toW WeierstrassCurve.Affine.negY
  show _ = (3 * p.1 ^ 2 + 2 * 0 * p.1 + a - 0 * p.2) / (p.2 - (-p.2 - 0 * p.1 - 0))
  congr 1 <;> ring

theorem ne_negY_of_ne_zero {F : Type} [Field F] (a b : F) (h2 : (2 : F) ≠ 0)
    (p : F × F) (hy : p.2 ≠ 0) : p.2 ≠ (toW a b).negY p.1 p.2 := by
  unfold toW WeierstrassCurve.Affine.negY
  intro h
  apply mul_ne_zero h2 hy
  linear_combination h

theorem sw_double_on_curve {F : Type} [Field F] (a b : F) (h2 : (2 : F) ≠ 0)
    (p : F × F) (hp : onCurve a b p) (hy : p.2 ≠ 0) :
    onCurve a b (sw_double_affine a p) := by
  have h1 : (toW a b).Equation p.1 p.2 := (onCurve_iff_equation a b p).mp hp
  have hneg := ne_negY_of_ne_zero a b h2 p hy
  have hxy : p.1 = p.1 → p.2 ≠ (toW a b).negY p.1 p.2 := fun _ => hneg
  have key := WeierstrassCurve.Affine.equation_add h1 h1 hxy
  rw [onCurve_iff_equation]
  have hX : (sw_double_affine a p).1 =
      (toW a b).addX p.1 p.1 ((toW a b).slope p.1 p.1 p.2 p.2) := by
    unfold sw_double_affine
    rw [← tangent_eq_slope a b p hneg]
    show tangent_slope a p * tangent_slope a p - 2 * p.1 = _
    unfold toW WeierstrassCurve.Affine.addX
    ring
  have hY : (sw_double_affine a p).2 =
      (toW a b).addY p.1 p.1 p.2 ((toW a b).slope p.1 p.1 p.2 p.2) := by
    unfold sw_double_affine
    rw [← tangent_eq_slope a b p hneg]
    show tangent_slope a p *
        (p.1 - (tangent_slope a p * tangent_slope a p - 2 * p.1)) - p.2 = _
    unfold toW WeierstrassCurve.Affine.addY WeierstrassCurve.Affine.negY
      WeierstrassCurve.Affine.negAddY WeierstrassCurve.Affine.addX
    ring
  rw [hX, hY]
  exact key

theorem sw_double_is_tangent_add {F : Type} [Field F] (a : F) (p : F × F) :
    sw_double_affine a p = point_from_slope (tangent_slope a p) p p := by
  unfold sw_double_affine point_from_slope
  refine Prod.ext ?_ ?_ <;> dsimp only <;> ring

/-- C1: for every curve descriptor, `a_int` and `b_int` return the
little-endian base-65536 positional reconstruction of the corresponding limb
array, i.e. the sum over all indices `i` of `limb[i] * 65536 ^ i`. -/
theorem a_int_b_int_positional_reconstruction (E : WeierstrassParameters) :
    E.a_int = to_integer_spec E.A ∧ E.b_int = to_integer_spec E.B := by
  refine ⟨?_, ?_⟩
  · show limbs_to_integer E.A = to_integer_spec E.A
    rw [limbs_to_integer_eq_val, limbs_val_zero_eq_sum]
    rfl
  · show limbs_to_integer E.B = to_integer_spec E.B
    rw [limbs_to_integer_eq_val, limbs_val_zero_eq_sum]
    rfl

/-- C2: decomposing any big integer `n ≤ 2 ^ (16 * MAX_NB_LIMBS) - 1` into a
`MAX_NB_LIMBS`-long array of 16-bit limbs and reconstructing it through the
codec summation used by `a_int` / `b_int` yields exactly `n`. -/
theorem codec_round_trip (E : WeierstrassParameters) (n : Nat)
    (h : n ≤ 2 ^ (16 * E.MAX_NB_LIMBS) - 1) :
    limbs_to_integer (from_curve_constant E.MAX_NB_LIMBS n) = n := by
  rw [limbs_to_integer_eq_val, limbs_val_decomp]
  apply Nat.mod_eq_of_lt
  have h1 : (2 : Nat) ^ (16 * E.MAX_NB_LIMBS) = 65536 ^ E.MAX_NB_LIMBS := by
    rw [show (65536 : Nat) = 2 ^ 16 by norm_num, ← pow_mul]
  have h2 : (0 : Nat) < 2 ^ (16 * E.MAX_NB_LIMBS) := pow_pos (by norm_num) _
  omega

/-- Witness for C2: the toy descriptor with the integer 70000. -/
theorem codec_round_trip_witness :
    70000 ≤ 2 ^ (16 * testCurve.MAX_NB_LIMBS) - 1 ∧
    limbs_to_integer (from_curve_constant testCurve.MAX_NB_LIMBS 70000) = 70000 :=
  ⟨by decide, codec_round_trip testCurve 70000 (by decide)⟩

/-- C3: on every call, whatever the prior builder state, `ec_generator`
allocates two fresh registers, pins them by constant constraints to exactly
the generator coordinates declared by the descriptor, and returns them as the
register-form point. -/
theorem ec_generator_pins_declared_generator (E : WeierstrassParameters) (b : AirBuilder) :
    (ec_generator E b).1 = ⟨b.num_regs, b.num_regs + 1⟩ ∧
    (ec_generator E b).2.constraints =
      b.constraints ++
        [FpConstraint.constEq b.num_regs E.generator.x,
         FpConstraint.constEq (b.num_regs + 1) E.generator.y] := by
  refine ⟨rfl, ?_⟩
  simp [ec_generator, AirBuilder.fp_constant]

/-- C4: for all pairs of distinct on-curve points with distinct
x-coordinates, the chord addition pinned by the Addition Gadget yields a point
on the curve, and it is commutative. -/
theorem ec_add_on_curve_and_comm {F : Type} [Field F] (a b : F) (p q : F × F)
    (hp : onCurve a b p) (hq : onCurve a b q) (hne : p ≠ q) (hx : p.1 ≠ q.1) :
    onCurve a b (sw_add_affine p q) ∧ sw_add_affine p q = sw_add_affine q p :=
  ⟨sw_add_on_curve a b p q hp hq hx, sw_add_comm_of_ne p q hx⟩

/-- Witness for C4: the spec's section 8 scenario curve `y^2 = x^3 + 7` over
the prime field with 17 elements, at the points `(1, 5)` and `(2, 7)`. -/
theorem ec_add_on_curve_and_comm_witness :
    (onCurve (0 : ZMod 17) 7 (1, 5) ∧ onCurve (0 : ZMod 17) 7 (2, 7) ∧
     ((1, 5) : ZMod 17 × ZMod 17) ≠ (2, 7) ∧
     (((1 : ZMod 17), (5 : ZMod 17)) : ZMod 17 × ZMod 17).1 ≠ ((2 : ZMod 17), (7 : ZMod 17)).1) ∧
    (onCurve (0 : ZMod 17) 7 (sw_add_affine (1, 5) (2, 7)) ∧
     sw_add_affine ((1 : ZMod 17), (5 : ZMod 17)) (2, 7) = sw_add_affine (2, 7) (1, 5)) :=
  ⟨⟨by unfold onCurve; decide, by unfold onCurve; decide, by decide, by decide⟩,
   ec_add_on_curve_and_comm 0 7 (1, 5) (2, 7) (by unfold onCurve; decide)
     (by unfold onCurve; decide) (by decide) (by decide)⟩

/-- C5: for every on-curve point with nonzero `y` (over a base field where the
short Weierstrass model is valid, i.e. `2 ≠ 0`), the Doubling Gadget's value
equals the section 4.4 addition formulas applied with `p` for both operands
and the independent tangent slope, and the result lies on the curve. -/
theorem ec_double_tangent_and_on_curve {F : Type} [Field F] (a b : F)
    (h2 : (2 : F) ≠ 0) (p : F × F) (hp : onCurve a b p) (hy : p.2 ≠ 0) :
    sw_double_affine a p = point_from_slope (tangent_slope a p) p p ∧
    onCurve a b (sw_double_affine a p) :=
  ⟨sw_double_is_tangent_add a p, sw_double_on_curve a b h2 p hp hy⟩

/-- Witness for C5: the same toy curve and field, at the point `(1, 5)`. -/
theorem ec_double_tangent_and_on_curve_witness :
    ((2 : ZMod 17) ≠ 0 ∧ onCurve (0 : ZMod 17) 7 (1, 5) ∧
     (((1 : ZMod 17), (5 : ZMod 17)) : ZMod 17 × ZMod 17).2 ≠ 0) ∧
    (sw_double_affine (0 : ZMod 17) (1, 5) =
       point_from_slope (tangent_slope 0 (1, 5)) (1, 5) (1, 5) ∧
     onCurve (0 : ZMod 17) 7 (sw_double_affine 0 (1, 5))) :=
  ⟨⟨by decide, by unfold onCurve; decide, by decide⟩,
   ec_double_tangent_and_on_curve 0 7 (by decide) (1, 5)
     (by unfold onCurve; decide) (by decide)⟩

/-- C6: `nb_scalar_bits` is the base-field limb count times 16; the toy
descriptor shows this upper bound need not equal the bit-length of the prime
group order. -/
theorem nb_scalar_bits_eq_limb_count_times_16 (E : WeierstrassParameters) :
    E.nb_scalar_bits = E.NB_LIMBS * 16 ∧
    ∃ E2 : WeierstrassParameters, E2.nb_scalar_bits ≠ Nat.size E2.prime_group_order := by
  refine ⟨rfl, ⟨testCurve, ?_⟩⟩
  have h : Nat.size testCurve.prime_group_order ≤ 5 :=
    Nat.size_le.mpr (show (18 : Nat) < 2 ^ 5 by norm_num)
  have h2 : testCurve.nb_scalar_bits = 32 := rfl
  omega

/-- C7: each `ec_double` call injects the curve coefficient `a` and the
literal `3` into two registers fresh for that call (`b.num_regs` and
`b.num_regs + 1`), emits both constant pins before every doubling constraint
that references them, and allocates thirteen fresh registers in total — so no
later call can reuse this call's constant registers. -/
theorem ec_double_injects_fresh_constants (E : WeierstrassParameters)
    (b : AirBuilder) (p : AffinePointRegister) :
    (ec_double E b p).2.constraints =
      b.constraints ++
        [FpConstraint.constEq b.num_regs E.a_int,
         FpConstraint.constEq (b.num_regs + 1) 3,
         FpConstraint.mul (b.num_regs + 2) p.x p.x,
         FpConstraint.mul (b.num_regs + 3) (b.num_regs + 1) (b.num_regs + 2),
         FpConstraint.add (b.num_regs + 4) (b.num_regs + 3) b.num_regs,
         FpConstraint.add (b.num_regs + 5) p.y p.y,
         FpConstraint.div (b.num_regs + 6) (b.num_regs + 4) (b.num_regs + 5),
         FpConstraint.mul (b.num_regs + 7) (b.num_regs + 6) (b.num_regs + 6),
         FpConstraint.sub (b.num_regs + 8) (b.num_regs + 7) p.x,
         FpConstraint.sub (b.num_regs + 9) (b.num_regs + 8) p.x,
         FpConstraint.sub (b.num_regs + 10) p.x (b.num_regs + 9),
         FpConstraint.mul (b.num_regs + 11) (b.num_regs + 6) (b.num_regs + 10),
         FpConstraint.sub (b.num_regs + 12) (b.num_regs + 11) p.y] ∧
    (ec_double E b p).2.num_regs = b.num_regs + 13 := by
  refine ⟨?_, ?_⟩ <;>
    simp [ec_double, AirBuilder.sw_double, AirBuilder.sw_tangent, AirBuilder.fp_constant,
      AirBuilder.fp_add, AirBuilder.fp_sub, AirBuilder.fp_mul, AirBuilder.fp_div]

/-- C8: `ec_add` is purely additive on the builder — the prior constraint list
survives as a prefix, the register count only grows — and it returns a freshly
allocated point whose registers are distinct from every previously allocated
register, in particular from those of `p` and `q`. -/
theorem ec_add_purely_additive (b : AirBuilder) (p q : AffinePointRegister)
    (hpx : p.x < b.num_regs) (hpy : p.y < b.num_regs)
    (hqx : q.x < b.num_regs) (hqy : q.y < b.num_regs) :
    (∃ new, (ec_add b p q).2.constraints = b.constraints ++ new) ∧
    b.num_regs ≤ (ec_add b p q).2.num_regs ∧
    (ec_add b p q).1.x ≠ p.x ∧ (ec_add b p q).1.x ≠ q.x ∧
    (ec_add b p q).1.y ≠ p.y ∧ (ec_add b p q).1.y ≠ q.y := by
  obtain ⟨hc, hn, hr⟩ := ec_add_shape b p q
  refine ⟨⟨_, hc⟩, by omega, ?_, ?_, ?_, ?_⟩ <;> rw [hr] <;> dsimp only <;> omega

/-- Witness for C8: a builder with four registers and input points using
registers 0 to 3. -/
theorem ec_add_purely_additive_witness :
    ((0 : Nat) < 4 ∧ (1 : Nat) < 4 ∧ (2 : Nat) < 4 ∧ (3 : Nat) < 4) ∧
    ((∃ new, (ec_add ⟨4, []⟩ ⟨0, 1⟩ ⟨2, 3⟩).2.constraints = [] ++ new) ∧
     4 ≤ (ec_add ⟨4, []⟩ ⟨0, 1⟩ ⟨2, 3⟩).2.num_regs ∧
     (ec_add ⟨4, []⟩ ⟨0, 1⟩ ⟨2, 3⟩).1.x ≠ 0 ∧ (ec_add ⟨4, []⟩ ⟨0, 1⟩ ⟨2, 3⟩).1.x ≠ 2 ∧
     (ec_add ⟨4, []⟩ ⟨0, 1⟩ ⟨2, 3⟩).1.y ≠ 1 ∧ (ec_add ⟨4, []⟩ ⟨0, 1⟩ ⟨2, 3⟩).1.y ≠ 3) :=
  ⟨by decide,
   ec_add_purely_additive ⟨4, []⟩ ⟨0, 1⟩ ⟨2, 3⟩ (by decide) (by decide) (by decide) (by decide)⟩

/-- C9: every gadget call returns a point register — there is no error path —
and a degenerate input such as `ec_add` with `p = q` surfaces only as an
infeasible emitted constraint system: no base-field assignment satisfies the
resulting constraint list, because the secant denominator register is pinned
to zero while the division constraint requires it nonzero. -/
theorem gadget_api_total_and_degenerate_infeasible (F : Type) [Field F]
    (E : WeierstrassParameters) (b : AirBuilder) (p q : AffinePointRegister) :
    (∃ r b2, ec_add b p q = (r, b2)) ∧
    (∃ r b2, ec_double E b p = (r, b2)) ∧
    (∃ r b2, ec_generator E b = (r, b2)) ∧
    ∀ σ : Nat → F, ¬ satisfiesAll σ (ec_add b p p).2.constraints := by
  refine ⟨⟨_, _, rfl⟩, ⟨_, _, rfl⟩, ⟨_, _, rfl⟩, ?_⟩
  intro σ hσ
  obtain ⟨hc, hn, hr⟩ := ec_add_shape b p p
  have hsub : FpConstraint.sub (b.num_regs + 1) p.x p.x ∈ (ec_add b p p).2.constraints := by
    rw [hc]
    simp
  have hdiv : FpConstraint.div (b.num_regs + 2) b.num_regs (b.num_regs + 1) ∈
      (ec_add b p p).2.constraints := by
    rw [hc]
    simp
  have h1 := hσ _ hsub
  have h2 := hσ _ hdiv
  simp only [FpConstraint.holds] at h1 h2
  exact h2.2 (h1.trans (sub_self _))

/-- C10: for every descriptor, whatever the limb contents, `a_int` and
`b_int` are strictly below `2 ^ (16 * MAX_NB_LIMBS)`; the reconstruction has
no error path and cannot exceed this bound. -/
theorem a_int_b_int_below_limb_capacity (E : WeierstrassParameters) :
    E.a_int < 2 ^ (16 * E.MAX_NB_LIMBS) ∧ E.b_int < 2 ^ (16 * E.MAX_NB_LIMBS) := by
  refine ⟨?_, ?_⟩
  · show limbs_to_integer E.A < _
    rw [limbs_to_integer_eq_val, ← E.A_length]
    exact limbs_val_lt E.A E.A_u16
  · show limbs_to_integer E.B < _
    rw [limbs_to_integer_eq_val, ← E.B_length]
    exact limbs_val_lt E.B E.B_u16
